import Mathlib

/-!
Shallow embedding of the trapezoidal anti-aliasing rasterizer core
(`src/hwrasterizer.rs`) together with proofs about its arithmetic and
control flow.

Machine integers (`i32`/`i64` in the source) are modelled as `Int`; every
place where the source widens to 64 bits before multiplying is exact in
`Int`, and the source's own documented input ranges (coordinates within
±2^26, `ErrorDown < 2^30`) keep all the 32-bit arithmetic below overflow,
so no wrap-around modelling is required for the properties proved here.
Rust's truncating division `/` on integers is modelled by `Int.tdiv`.
The singly linked active edge list with its head/tail sentinels is
modelled as a `List CEdge` of the real (non-sentinel) edges; the
`EndY == INT_MIN` tail test of the source corresponds to reaching the
end of the list.
-/

namespace HwRasterizer

/-- Fill mode enumeration (`MilFillMode`). Only the two values used by the
rasterizer are modelled. -/
inductive MilFillMode where
  | Alternate : MilFillMode
  | Winding : MilFillMode
deriving DecidableEq, Repr

/-- Edge record (`CEdge`).  The `Next` pointer of the source is modelled by
list adjacency, so it does not appear as a field. -/
structure CEdge where
  X : Int
  Dx : Int
  Error : Int
  ErrorUp : Int
  ErrorDown : Int
  StartY : Int
  EndY : Int
  WindingDirection : Int
deriving DecidableEq, Repr

/-- `c_nShift`: subpixel shift (8x8 overscale). -/
def c_nShift : Int := 3

/-- `c_nShiftSize`: number of sub-scanlines per pixel row. -/
def c_nShiftSize : Int := 8

/-- `c_nHalfShiftSize`: half of `c_nShiftSize`. -/
def c_nHalfShiftSize : Int := 4

/-- `c_nShiftMask`: low-bits mask for pixel alignment tests. -/
def c_nShiftMask : Int := 7

/-- `IsFractionGreaterThan`: decide `nA/dA > nB/dB` by comparing the exact
64-bit cross products `nA*dB` and `nB*dA` (denominators assumed positive). -/
def IsFractionGreaterThan (nNumeratorA nDenominatorA nNumeratorB nDenominatorB : Int) : Bool :=
  nNumeratorA * nDenominatorB > nNumeratorB * nDenominatorA

/-- `IsFractionLessThan`: decide `nA/dA < nB/dB` by comparing the exact
64-bit cross products (denominators assumed positive). -/
def IsFractionLessThan (nNumeratorA nDenominatorA nNumeratorB nDenominatorB : Int) : Bool :=
  nNumeratorA * nDenominatorB < nNumeratorB * nDenominatorA

/-- One edge's half of `AdvanceDDAMultipleSteps`: starting from the edge's
`(X, Error)`, compute the `(x, error)` reached after `nSubpixelYAdvance`
sub-scanline steps.  The 64-bit intermediate `llSubpixelErrorBottom` of the
source is exact in `Int`; the `i64` division is Rust truncating division,
modelled by `Int.tdiv`. -/
def advanceDDAEdge (pEdge : CEdge) (nSubpixelYAdvance : Int) : Int × Int :=
  let nSubpixelXBottom := pEdge.X + nSubpixelYAdvance * pEdge.Dx
  let llSubpixelErrorBottom := pEdge.Error + nSubpixelYAdvance * pEdge.ErrorUp
  if 0 ≤ llSubpixelErrorBottom then
    let llSubpixelXDelta := llSubpixelErrorBottom.tdiv pEdge.ErrorDown
    let nSubpixelXDelta := llSubpixelXDelta + 1
    (nSubpixelXBottom + nSubpixelXDelta,
     llSubpixelErrorBottom - pEdge.ErrorDown * nSubpixelXDelta)
  else
    (nSubpixelXBottom, llSubpixelErrorBottom)

/-- `AdvanceDDAMultipleSteps`: advance the DDA of both edges of a pair by
`nSubpixelYAdvance` sub-scanline steps, returning
`(xLeft, errLeft, xRight, errRight)`.  The source writes the results into
out-parameters and leaves both edges untouched; here the function is pure. -/
def AdvanceDDAMultipleSteps (pEdgeLeft pEdgeRight : CEdge) (nSubpixelYAdvance : Int) :
    Int × Int × Int × Int :=
  let l := advanceDDAEdge pEdgeLeft nSubpixelYAdvance
  let r := advanceDDAEdge pEdgeRight nSubpixelYAdvance
  (l.1, l.2, r.1, r.2)

/-- `ComputeDeltaUpperBound`: a value that is at least
`nSubpixelYAdvance * |1/m|` for the slope `m` encoded by the edge. -/
def ComputeDeltaUpperBound (pEdge : CEdge) (nSubpixelYAdvance : Int) : Int :=
  if pEdge.ErrorUp = 0 then
    nSubpixelYAdvance * |pEdge.Dx|
  else
    let nAbsDx := if 0 ≤ pEdge.Dx then pEdge.Dx else -pEdge.Dx - 1
    let nAbsErrorUp := if 0 ≤ pEdge.Dx then pEdge.ErrorUp else -pEdge.ErrorUp + pEdge.ErrorDown
    nSubpixelYAdvance * nAbsDx + (nSubpixelYAdvance * nAbsErrorUp).tdiv pEdge.ErrorDown + 1

/-- `ComputeDistanceLowerBound`: a value that is at most the distance between
the two edge positions; base `Rx - Lx`, minus one when the unbiased fractions
compare unfavourably. -/
def ComputeDistanceLowerBound (pEdgeLeft pEdgeRight : CEdge) : Int :=
  let nSubpixelXDistanceLowerBound := pEdgeRight.X - pEdgeLeft.X
  if IsFractionLessThan (pEdgeRight.Error + 1) pEdgeRight.ErrorDown
      (pEdgeLeft.Error + 1) pEdgeLeft.ErrorDown then
    nSubpixelXDistanceLowerBound - 1
  else
    nSubpixelXDistanceLowerBound

/-- `y & ~c_nShiftMask` on a two's-complement 32-bit integer: clearing the
low three bits floors `y` to the nearest multiple of 8 below it, which on
`Int` is `y - y % 8` (the euclidean remainder is the value of the low
bits). -/
def alignDownToScanline (y : Int) : Int := y - y % 8

/-- The winding-mode guard loop of `ComputeTrapezoidsEndScan`: walk the
active list two edges at a time (`pEdge = pEdge->Next->Next`) and report
whether some pair has equal `WindingDirection`.  The source relies on the
active list having even length (asserted via `ASSERTACTIVELIST`); on a
stray trailing singleton this model reports no pair, matching the claims'
even-length scope. -/
def hasEqualWindingPair : List CEdge → Bool
  | l :: r :: rest =>
    decide (l.WindingDirection = r.WindingDirection) || hasEqualWindingPair rest
  | _ => false

/-- The main loop of `ComputeTrapezoidsEndScan` over the active edge list.
Each iteration handles one edge `pEdge` (head of the remaining list) with
`pEdgeRight = pEdge->Next` (head of the tail): step 1 clamps the candidate
bottom to `pEdge->EndY`; step 2, when the right neighbour is not the tail
sentinel, performs the expand/cross checks.  `none` models the
`goto Cleanup` paths that return `nSubpixelYCurrent`; `some yBottom` models
falling out of the loop with the accumulated `nSubpixelYBottomTrapezoids`.
All DDA advancement goes into local temporaries. -/
def endScanLoop (nSubpixelYCurrent : Int) : Int → List CEdge → Option Int
  | nSubpixelYBottomTrapezoids, [] => some nSubpixelYBottomTrapezoids
  | nSubpixelYBottomTrapezoids, pEdge :: rest =>
    let yBottom1 := min nSubpixelYBottomTrapezoids pEdge.EndY
    match rest with
    | [] => some yBottom1
    | pEdgeRight :: _ =>
      let nSubpixelExpandDistanceUpperBound :=
        c_nShiftSize
          + ComputeDeltaUpperBound pEdge c_nHalfShiftSize
          + ComputeDeltaUpperBound pEdgeRight c_nHalfShiftSize
      let nSubpixelXTopDistanceLowerBound :=
        ComputeDistanceLowerBound pEdge pEdgeRight - nSubpixelExpandDistanceUpperBound
      if nSubpixelXTopDistanceLowerBound < 0 then
        none
      else if pEdge.Dx > pEdgeRight.Dx
          ∨ (pEdge.Dx = pEdgeRight.Dx
             ∧ IsFractionGreaterThan pEdge.ErrorUp pEdge.ErrorDown
                 pEdgeRight.ErrorUp pEdgeRight.ErrorDown) then
        let nSubpixelYAdvance := yBottom1 - nSubpixelYCurrent
        let dda := AdvanceDDAMultipleSteps pEdge pEdgeRight nSubpixelYAdvance
        let nSubpixelXLeftAdjustedBottom := dda.1 + nSubpixelExpandDistanceUpperBound
        let nSubpixelXRightBottom := dda.2.2.1
        if nSubpixelXRightBottom ≤ nSubpixelXLeftAdjustedBottom then
          let nSubpixelXBottomDistanceUpperBound :=
            nSubpixelXLeftAdjustedBottom - nSubpixelXRightBottom + 1
          let yBottom2 :=
            nSubpixelYCurrent +
              (nSubpixelYAdvance * nSubpixelXTopDistanceLowerBound).tdiv
                (nSubpixelXTopDistanceLowerBound + nSubpixelXBottomDistanceUpperBound)
          if yBottom2 < nSubpixelYCurrent + c_nShiftSize then
            none
          else
            endScanLoop nSubpixelYCurrent yBottom2 rest
        else
          endScanLoop nSubpixelYCurrent yBottom1 rest
      else
        endScanLoop nSubpixelYCurrent yBottom1 rest

/-- `ComputeTrapezoidsEndScan`: decide how far the trapezoid fast path may
advance from `nSubpixelYCurrent`, or return `nSubpixelYCurrent` itself when
no trapezoid row can be emitted.  The final `& ~c_nShiftMask` snap is
`alignDownToScanline`. -/
def ComputeTrapezoidsEndScan (m_fillMode : MilFillMode) (pEdgeCurrent : List CEdge)
    (nSubpixelYCurrent nSubpixelYNextInactive : Int) : Int :=
  if m_fillMode = MilFillMode.Winding ∧ hasEqualWindingPair pEdgeCurrent then
    nSubpixelYCurrent
  else
    match endScanLoop nSubpixelYCurrent nSubpixelYNextInactive pEdgeCurrent with
    | none => nSubpixelYCurrent
    | some nSubpixelYBottomTrapezoids => alignDownToScanline nSubpixelYBottomTrapezoids

/-- The edge-list effect of the `OutputTrapezoids` loop: each pair
`(pEdgeLeft, pEdgeRight)` is advanced by `AdvanceDDAMultipleSteps` and its
`X`/`Error` fields are overwritten with the bottom values; the loop then
moves to `pEdgeRight->Next` and stops when that is the tail sentinel
(empty remainder).  The sink call itself carries no edge state. -/
def outputTrapezoidsEdges (nSubpixelYAdvance : Int) : List CEdge → List CEdge
  | pEdgeLeft :: pEdgeRight :: rest =>
    let dda := AdvanceDDAMultipleSteps pEdgeLeft pEdgeRight nSubpixelYAdvance
    { pEdgeLeft with X := dda.1, Error := dda.2.1 }
      :: { pEdgeRight with X := dda.2.2.1, Error := dda.2.2.2 }
      :: outputTrapezoidsEdges nSubpixelYAdvance rest
  | other => other

/-- `OutputTrapezoids` restricted to its effect on the active edge list,
with `nSubpixelYAdvance = nSubpixelYNext - nSubpixelYCurrent` as in the
source. -/
def OutputTrapezoids (pEdgeCurrent : List CEdge) (nSubpixelYCurrent nSubpixelYNext : Int) :
    List CEdge :=
  outputTrapezoidsEdges (nSubpixelYNext - nSubpixelYCurrent) pEdgeCurrent

/-- State-threaded rendering of the `ComputeTrapezoidsEndScan` loop: the
source walks the list through `const CEdge *` pointers and stores every
`AdvanceDDAMultipleSteps` result in local temporaries, so the only state it
can return is the edges it read.  This version makes that explicit by
rebuilding and returning the traversed list alongside the loop result. -/
def endScanLoopSt (nSubpixelYCurrent : Int) : Int → List CEdge → Option Int × List CEdge
  | nSubpixelYBottomTrapezoids, [] => (some nSubpixelYBottomTrapezoids, [])
  | nSubpixelYBottomTrapezoids, pEdge :: rest =>
    let yBottom1 := min nSubpixelYBottomTrapezoids pEdge.EndY
    match rest with
    | [] => (some yBottom1, [pEdge])
    | pEdgeRight :: _ =>
      let nSubpixelExpandDistanceUpperBound :=
        c_nShiftSize
          + ComputeDeltaUpperBound pEdge c_nHalfShiftSize
          + ComputeDeltaUpperBound pEdgeRight c_nHalfShiftSize
      let nSubpixelXTopDistanceLowerBound :=
        ComputeDistanceLowerBound pEdge pEdgeRight - nSubpixelExpandDistanceUpperBound
      if nSubpixelXTopDistanceLowerBound < 0 then
        (none, pEdge :: rest)
      else if pEdge.Dx > pEdgeRight.Dx
          ∨ (pEdge.Dx = pEdgeRight.Dx
             ∧ IsFractionGreaterThan pEdge.ErrorUp pEdge.ErrorDown
                 pEdgeRight.ErrorUp pEdgeRight.ErrorDown) then
        let nSubpixelYAdvance := yBottom1 - nSubpixelYCurrent
        let dda := AdvanceDDAMultipleSteps pEdge pEdgeRight nSubpixelYAdvance
        let nSubpixelXLeftAdjustedBottom := dda.1 + nSubpixelExpandDistanceUpperBound
        let nSubpixelXRightBottom := dda.2.2.1
        if nSubpixelXRightBottom ≤ nSubpixelXLeftAdjustedBottom then
          let nSubpixelXBottomDistanceUpperBound :=
            nSubpixelXLeftAdjustedBottom - nSubpixelXRightBottom + 1
          let yBottom2 :=
            nSubpixelYCurrent +
              (nSubpixelYAdvance * nSubpixelXTopDistanceLowerBound).tdiv
                (nSubpixelXTopDistanceLowerBound + nSubpixelXBottomDistanceUpperBound)
          if yBottom2 < nSubpixelYCurrent + c_nShiftSize then
            (none, pEdge :: rest)
          else
            let res := endScanLoopSt nSubpixelYCurrent yBottom2 rest
            (res.1, pEdge :: res.2)
        else
          let res := endScanLoopSt nSubpixelYCurrent yBottom1 rest
          (res.1, pEdge :: res.2)
      else
        let res := endScanLoopSt nSubpixelYCurrent yBottom1 rest
        (res.1, pEdge :: res.2)

/-- `ComputeTrapezoidsEndScan` with the post-call state of the active edge
list made explicit (see `endScanLoopSt`).  The winding guard also only reads
`WindingDirection` fields. -/
def ComputeTrapezoidsEndScanSt (m_fillMode : MilFillMode) (pEdgeCurrent : List CEdge)
    (nSubpixelYCurrent nSubpixelYNextInactive : Int) : Int × List CEdge :=
  if m_fillMode = MilFillMode.Winding ∧ hasEqualWindingPair pEdgeCurrent then
    (nSubpixelYCurrent, pEdgeCurrent)
  else
    match endScanLoopSt nSubpixelYCurrent nSubpixelYNextInactive pEdgeCurrent with
    | (none, st) => (nSubpixelYCurrent, st)
    | (some nSubpixelYBottomTrapezoids, st) =>
      (alignDownToScanline nSubpixelYBottomTrapezoids, st)

/-- `S_OK` HRESULT. -/
def S_OK : Int := 0

/-- Modelled from the spec: `WGXERR_VALUEOVERFLOW` is the failure (negative)
HRESULT produced when path enumeration overflows the 28.4 coordinate range;
its definition lives outside this file's source.  Only its negativity
(`FAILED`) and its identity matter to `RasterizePath`. -/
def WGXERR_VALUEOVERFLOW : Int := -2003304438

/-- `FAILED(hr)`: an HRESULT denotes failure exactly when it is negative. -/
def FAILED (hr : Int) : Bool := hr < 0

/-- Environment for one `RasterizePath` call: the outcomes of the external
collaborators it invokes.  `enumHr` is the HRESULT of
`FixedPointPathEnumerate`, `nTotalCount` the edge count reported by
`edgeStore.StartEnumeration()`, and `sweep` the result and primitive stream
that `RasterizeEdges` would produce when reached. -/
structure RasterizePathEnv (Prim : Type) where
  enumHr : Int
  nTotalCount : Nat
  sweepHr : Int
  sweepOutput : List Prim

/-- Control flow of `RasterizePath` around its early exits: fewer than two
points, failed enumeration (with `WGXERR_VALUEOVERFLOW` mapped to `S_OK`),
and an empty edge store all return before any primitive is sent to the
sink; otherwise the sweep runs and its output is the call's output. -/
def RasterizePath {Prim : Type} (cPoints : Nat) (env : RasterizePathEnv Prim) :
    Int × List Prim :=
  if cPoints < 2 then
    (S_OK, [])
  else if FAILED env.enumHr then
    (if env.enumHr = WGXERR_VALUEOVERFLOW then S_OK else env.enumHr, [])
  else if env.nTotalCount = 0 then
    (S_OK, [])
  else
    (env.sweepHr, env.sweepOutput)

/-- `IsTagEnabled(tagDisableTrapezoids)`: debug-only tag, disabled in the
configurations this spec covers. -/
def tagDisableTrapezoids : Bool := false

/-- One iteration of the `RasterizeEdges` sweep loop, reduced to its
y-advancement decision.  Returns the new `nSubpixelYCurrent` together with
`true` when the trapezoid path ran (`nSubpixelYNext > nSubpixelYCurrent`
after `ComputeTrapezoidsEndScan`) and `false` when the complex-scan path
ran (one sub-scanline for a non-empty active list, a jump to
`nSubpixelYNextInactive` for an empty one). -/
def rasterizeEdgesStep (m_fillMode : MilFillMode) (pEdgeCurrent : List CEdge)
    (nSubpixelYCurrent nSubpixelYNextInactive : Int) : Int × Bool :=
  let nSubpixelYNext :=
    if tagDisableTrapezoids = false
        ∧ nSubpixelYCurrent % 8 = 0
        ∧ pEdgeCurrent ≠ []
        ∧ nSubpixelYCurrent + c_nShiftSize ≤ nSubpixelYNextInactive then
      ComputeTrapezoidsEndScan m_fillMode pEdgeCurrent nSubpixelYCurrent nSubpixelYNextInactive
    else
      nSubpixelYCurrent
  if nSubpixelYCurrent < nSubpixelYNext then
    (nSubpixelYNext, true)
  else if pEdgeCurrent = [] then
    (nSubpixelYNextInactive, false)
  else
    (nSubpixelYCurrent + 1, false)

/-- Consecutive pairs of a list taken pairwise (1st with 2nd, 3rd with
4th, ...), the pairing used by the winding guard and by `OutputTrapezoids`. -/
def pairsOf : List CEdge → List (CEdge × CEdge)
  | l :: r :: rest => (l, r) :: pairsOf rest
  | _ => []

/-! ### Arithmetic helper lemmas -/

/-- Rust's truncating division agrees with euclidean division on
non-negative operands. -/
theorem tdiv_eq_ediv_nonneg (a b : Int) (ha : 0 ≤ a) (hb : 0 ≤ b) : a.tdiv b = a / b := by
  match a, b with
  | Int.ofNat m, Int.ofNat n => rfl
  | Int.ofNat m, Int.negSucc n => exact absurd hb (Int.negSucc_not_nonneg n).mp
  | Int.negSucc m, _ => exact absurd ha (Int.negSucc_not_nonneg m).mp

/-- The integer quotient plus one dominates the exact rational quotient. -/
theorem rat_div_le_tdiv_add_one (m d : Int) (hm : 0 ≤ m) (hd : 0 < d) :
    (m : ℚ) / d ≤ (m.tdiv d : ℚ) + 1 := by
  rw [tdiv_eq_ediv_nonneg m d hm hd.le]
  have h1 := Int.ediv_add_emod m d
  have h3 := Int.emod_lt_of_pos m hd
  have h4 : m < d * (m / d + 1) := by
    have h5 : d * (m / d + 1) = d * (m / d) + d := by ring
    omega
  have hd' : (0 : ℚ) < (d : ℚ) := by exact_mod_cast hd
  rw [div_le_iff₀ hd']
  have h6 : (m : ℚ) < (d : ℚ) * (((m / d : Int) : ℚ) + 1) := by exact_mod_cast h4
  nlinarith [h6]

/-- Dividing `dy * t` by the larger denominator `t + b` keeps the truncating
quotient at most `dy`. -/
theorem tdiv_mul_le (dy t b : Int) (hdy : 0 ≤ dy) (ht : 0 ≤ t) (hb : 0 < b) :
    (dy * t).tdiv (t + b) ≤ dy := by
  have htb : 0 < t + b := by omega
  rw [tdiv_eq_ediv_nonneg _ _ (mul_nonneg hdy ht) htb.le]
  calc dy * t / (t + b) ≤ dy * (t + b) / (t + b) := by
        exact Int.ediv_le_ediv htb (by nlinarith)
    _ = dy := Int.mul_ediv_cancel dy (ne_of_gt htb)

/-- `alignDownToScanline` as a multiple of 8. -/
theorem alignDownToScanline_eq (y : Int) : alignDownToScanline y = 8 * (y / 8) := by
  have := Int.ediv_add_emod y 8
  unfold alignDownToScanline
  omega

/-- The snapped value is a multiple of 8. -/
theorem alignDownToScanline_emod (y : Int) : alignDownToScanline y % 8 = 0 := by
  rw [alignDownToScanline_eq]
  simp [Int.mul_emod_right]

/-- Snapping only moves down. -/
theorem alignDownToScanline_le (y : Int) : alignDownToScanline y ≤ y := by
  have := Int.emod_nonneg y (by norm_num : (8:Int) ≠ 0)
  unfold alignDownToScanline
  omega

/-- Snapping is monotone. -/
theorem alignDownToScanline_mono {x y : Int} (h : x ≤ y) :
    alignDownToScanline x ≤ alignDownToScanline y := by
  rw [alignDownToScanline_eq, alignDownToScanline_eq]
  have := Int.ediv_le_ediv (by norm_num : (0:Int) < 8) h
  omega

/-- A value that is already a multiple of 8 is fixed by snapping. -/
theorem alignDownToScanline_of_emod {y : Int} (h : y % 8 = 0) :
    alignDownToScanline y = y := by
  unfold alignDownToScanline
  omega

/-! ### DDA advance: error range and exactness -/

/-- After a multi-step advance the error lands in `[-ErrorDown, 0)`: it can
touch `-ErrorDown` itself (exactly when the accumulated 64-bit error is a
multiple of `ErrorDown`), which is one wider than the strict interval the
source's debug assertion claims. -/
theorem advanceDDAEdge_error_range (pEdge : CEdge) (nSubpixelYAdvance : Int)
    (hED : 0 < pEdge.ErrorDown) (hEU : 0 ≤ pEdge.ErrorUp)
    (hErr1 : -pEdge.ErrorDown ≤ pEdge.Error)
    (hdy : 0 ≤ nSubpixelYAdvance) :
    -pEdge.ErrorDown ≤ (advanceDDAEdge pEdge nSubpixelYAdvance).2 ∧
      (advanceDDAEdge pEdge nSubpixelYAdvance).2 < 0 := by
  by_cases h : 0 ≤ pEdge.Error + nSubpixelYAdvance * pEdge.ErrorUp
  · simp only [advanceDDAEdge, if_pos h]
    rw [tdiv_eq_ediv_nonneg _ _ h hED.le]
    have h1 := Int.ediv_add_emod (pEdge.Error + nSubpixelYAdvance * pEdge.ErrorUp) pEdge.ErrorDown
    have h2 := Int.emod_nonneg (pEdge.Error + nSubpixelYAdvance * pEdge.ErrorUp)
      (ne_of_gt hED)
    have h3 := Int.emod_lt_of_pos (pEdge.Error + nSubpixelYAdvance * pEdge.ErrorUp) hED
    have h5 : pEdge.ErrorDown *
        ((pEdge.Error + nSubpixelYAdvance * pEdge.ErrorUp) / pEdge.ErrorDown + 1)
        = pEdge.ErrorDown *
            ((pEdge.Error + nSubpixelYAdvance * pEdge.ErrorUp) / pEdge.ErrorDown)
          + pEdge.ErrorDown := by ring
    constructor <;> omega
  · simp only [advanceDDAEdge, if_neg h]
    have : 0 ≤ nSubpixelYAdvance * pEdge.ErrorUp := mul_nonneg hdy hEU
    constructor <;> omega

/-- The multi-step advance is exact: the rational position
`x + error/ErrorDown` after the advance equals the starting position plus
`Δy` times the rational inverse slope `Dx + ErrorUp/ErrorDown`.  This holds
for any value of the quotient, because the `x` increment and the error
subtraction cancel exactly. -/
theorem advanceDDAEdge_exact (pEdge : CEdge) (nSubpixelYAdvance : Int)
    (hED : pEdge.ErrorDown ≠ 0) :
    ((advanceDDAEdge pEdge nSubpixelYAdvance).1 : ℚ)
        + ((advanceDDAEdge pEdge nSubpixelYAdvance).2 : ℚ) / (pEdge.ErrorDown : ℚ)
      = (pEdge.X : ℚ) + (pEdge.Error : ℚ) / (pEdge.ErrorDown : ℚ)
        + (nSubpixelYAdvance : ℚ)
            * ((pEdge.Dx : ℚ) + (pEdge.ErrorUp : ℚ) / (pEdge.ErrorDown : ℚ)) := by
  have hED' : (pEdge.ErrorDown : ℚ) ≠ 0 := Int.cast_ne_zero.mpr hED
  by_cases h : 0 ≤ pEdge.Error + nSubpixelYAdvance * pEdge.ErrorUp
  · simp only [advanceDDAEdge, if_pos h]
    push_cast
    field_simp
    ring
  · simp only [advanceDDAEdge, if_neg h]
    push_cast
    field_simp
    ring

/-! ### Claim C1: AdvanceDDAMultipleSteps -/

/-- Componentwise unfolding of `AdvanceDDAMultipleSteps`. -/
theorem AdvanceDDAMultipleSteps_eq (pEdgeLeft pEdgeRight : CEdge) (nSubpixelYAdvance : Int) :
    AdvanceDDAMultipleSteps pEdgeLeft pEdgeRight nSubpixelYAdvance =
      ((advanceDDAEdge pEdgeLeft nSubpixelYAdvance).1,
       (advanceDDAEdge pEdgeLeft nSubpixelYAdvance).2,
       (advanceDDAEdge pEdgeRight nSubpixelYAdvance).1,
       (advanceDDAEdge pEdgeRight nSubpixelYAdvance).2) := rfl

/-- Hypotheses of claim C1 for one edge: documented input ranges of
`AdvanceDDAMultipleSteps`. -/
def DDAInputRange (pEdge : CEdge) : Prop :=
  0 < pEdge.ErrorDown ∧ pEdge.ErrorDown < 2 ^ 30 ∧
    0 ≤ pEdge.ErrorUp ∧ pEdge.ErrorUp < pEdge.ErrorDown ∧
    -pEdge.ErrorDown ≤ pEdge.Error ∧ pEdge.Error < 0 ∧
    |pEdge.X| ≤ 2 ^ 26

instance (pEdge : CEdge) : Decidable (DDAInputRange pEdge) := by
  unfold DDAInputRange
  infer_instance

/-- Conclusion of the amended claim C1 for one edge and its returned
`(x, err)` pair: the resulting error lies in the closed-open interval
`[-ErrorDown, 0)`, the result is exact as a rational position, and the
64-bit error value fits losslessly in 32 bits. -/
def DDAResultOk (pEdge : CEdge) (nSubpixelYAdvance x err : Int) : Prop :=
  (-pEdge.ErrorDown ≤ err ∧ err < 0) ∧
    ((x : ℚ) + (err : ℚ) / (pEdge.ErrorDown : ℚ)
      = (pEdge.X : ℚ) + (pEdge.Error : ℚ) / (pEdge.ErrorDown : ℚ)
        + (nSubpixelYAdvance : ℚ)
            * ((pEdge.Dx : ℚ) + (pEdge.ErrorUp : ℚ) / (pEdge.ErrorDown : ℚ))) ∧
    (-(2 ^ 31) ≤ err ∧ err < 2 ^ 31)

/-- C1 (amended).  For every pair of edges within the documented input
ranges and every `Δy ≥ 1`, `AdvanceDDAMultipleSteps` returns, for each
edge, a pair `(x, err)` with `err ∈ [-ErrorDown, 0)` (the claim's strict
interval `(-ErrorDown, 0)` is falsified by `C1_counterexample`; the closed
left end is the correction), with `x + err/ErrorDown` exactly equal to
`X + Error/ErrorDown + Δy * (Dx + ErrorUp/ErrorDown)` as rationals, and
with the 64-bit intermediate error fitting losslessly in 32 bits.  The
embedding is a pure function of the two edges, which it does not mutate. -/
theorem C1_advanceDDAMultipleSteps_amended (pEdgeLeft pEdgeRight : CEdge)
    (nSubpixelYAdvance : Int)
    (hL : DDAInputRange pEdgeLeft) (hR : DDAInputRange pEdgeRight)
    (hdy : 1 ≤ nSubpixelYAdvance) :
    DDAResultOk pEdgeLeft nSubpixelYAdvance
        (AdvanceDDAMultipleSteps pEdgeLeft pEdgeRight nSubpixelYAdvance).1
        (AdvanceDDAMultipleSteps pEdgeLeft pEdgeRight nSubpixelYAdvance).2.1 ∧
      DDAResultOk pEdgeRight nSubpixelYAdvance
        (AdvanceDDAMultipleSteps pEdgeLeft pEdgeRight nSubpixelYAdvance).2.2.1
        (AdvanceDDAMultipleSteps pEdgeLeft pEdgeRight nSubpixelYAdvance).2.2.2 := by
  obtain ⟨hED, hED30, hEU, _hEUlt, hErr1, _hErr2, _hX⟩ := hL
  obtain ⟨hED', hED30', hEU', _hEUlt', hErr1', _hErr2', _hX'⟩ := hR
  have hdy' : (0 : Int) ≤ nSubpixelYAdvance := by omega
  have rangeL := advanceDDAEdge_error_range pEdgeLeft nSubpixelYAdvance hED hEU hErr1 hdy'
  have rangeR := advanceDDAEdge_error_range pEdgeRight nSubpixelYAdvance hED' hEU' hErr1' hdy'
  have exactL := advanceDDAEdge_exact pEdgeLeft nSubpixelYAdvance (ne_of_gt hED)
  have exactR := advanceDDAEdge_exact pEdgeRight nSubpixelYAdvance (ne_of_gt hED')
  simp only [AdvanceDDAMultipleSteps_eq]
  constructor
  · exact ⟨⟨rangeL.1, rangeL.2⟩, exactL, by omega, by omega⟩
  · exact ⟨⟨rangeR.1, rangeR.2⟩, exactR, by omega, by omega⟩

/-- C1 counterexample.  The edge `X = 0, Dx = 0, Error = -1, ErrorUp = 0,
ErrorDown = 1` lies inside every hypothesis of claim C1, yet for `Δy = 1`
the returned error equals `-ErrorDown` itself, so it is not strictly inside
`(-ErrorDown, 0)` as the claim (and the source's debug assertion) states. -/
theorem C1_counterexample :
    DDAInputRange ⟨0, 0, -1, 0, 1, 0, 16, 1⟩ ∧
      (1 : Int) ≥ 1 ∧
      ¬ (-(CEdge.mk 0 0 (-1) 0 1 0 16 1).ErrorDown
          < (AdvanceDDAMultipleSteps ⟨0, 0, -1, 0, 1, 0, 16, 1⟩
              ⟨0, 0, -1, 0, 1, 0, 16, 1⟩ 1).2.1) := by
  refine ⟨by decide, by decide, by decide⟩

/-- C1 witness: the amended theorem applied to a concrete pair of edges. -/
theorem C1_witness :
    (DDAInputRange ⟨5, 2, -1, 1, 3, 0, 16, 1⟩ ∧ DDAInputRange ⟨9, 0, -1, 0, 2, 0, 16, -1⟩ ∧
        (1 : Int) ≤ 2) ∧
      (DDAResultOk ⟨5, 2, -1, 1, 3, 0, 16, 1⟩ 2
          (AdvanceDDAMultipleSteps ⟨5, 2, -1, 1, 3, 0, 16, 1⟩ ⟨9, 0, -1, 0, 2, 0, 16, -1⟩ 2).1
          (AdvanceDDAMultipleSteps ⟨5, 2, -1, 1, 3, 0, 16, 1⟩ ⟨9, 0, -1, 0, 2, 0, 16, -1⟩ 2).2.1 ∧
        DDAResultOk ⟨9, 0, -1, 0, 2, 0, 16, -1⟩ 2
          (AdvanceDDAMultipleSteps ⟨5, 2, -1, 1, 3, 0, 16, 1⟩ ⟨9, 0, -1, 0, 2, 0, 16, -1⟩ 2).2.2.1
          (AdvanceDDAMultipleSteps ⟨5, 2, -1, 1, 3, 0, 16, 1⟩ ⟨9, 0, -1, 0, 2, 0, 16, -1⟩ 2).2.2.2) :=
  ⟨⟨by decide, by decide, by decide⟩,
    C1_advanceDDAMultipleSteps_amended _ _ 2 (by decide) (by decide) (by decide)⟩

/-! ### Claim C4: ComputeDeltaUpperBound -/

/-- Core estimate shared by both sign cases of `ComputeDeltaUpperBound`:
the computed integer dominates the exact rational `dy * (a + u/ED)`. -/
theorem deltaUB_core (dy a u ED : Int) (hdy : 0 ≤ dy) (hu : 0 ≤ u) (hED : 0 < ED) :
    (dy : ℚ) * ((a : ℚ) + (u : ℚ) / (ED : ℚ))
      ≤ ((dy * a + (dy * u).tdiv ED + 1 : Int) : ℚ) := by
  have key := rat_div_le_tdiv_add_one (dy * u) ED (mul_nonneg hdy hu) hED
  push_cast at key ⊢
  have expand : (dy : ℚ) * ((a : ℚ) + (u : ℚ) / (ED : ℚ))
      = (dy : ℚ) * (a : ℚ) + (dy : ℚ) * (u : ℚ) / (ED : ℚ) := by ring
  rw [expand]
  linarith [key]

/-- For a negative `Dx`, the absolute rational inverse slope rewrites to the
debiased pair `(-Dx - 1, ErrorDown - ErrorUp)` used by the source. -/
theorem abs_slope_of_neg (Dx EU ED : Int) (hDx : Dx < 0) (hEU : 0 ≤ EU) (hlt : EU < ED) :
    |(Dx : ℚ) + (EU : ℚ) / (ED : ℚ)|
      = ((-Dx - 1 : Int) : ℚ) + ((-EU + ED : Int) : ℚ) / (ED : ℚ) := by
  have hED : 0 < ED := by omega
  have hEDq : (0 : ℚ) < (ED : ℚ) := by exact_mod_cast hED
  have hfrac : (EU : ℚ) / (ED : ℚ) < 1 := by
    rw [div_lt_one hEDq]
    exact_mod_cast hlt
  have hDxq : (Dx : ℚ) ≤ -1 := by exact_mod_cast (by omega : Dx ≤ -1)
  have hneg : (Dx : ℚ) + (EU : ℚ) / (ED : ℚ) < 0 := by linarith
  rw [abs_of_neg hneg]
  push_cast
  field_simp
  ring

/-- Conclusion of claim C4: `ComputeDeltaUpperBound` dominates the exact
rational `Δy * |Dx + ErrorUp/ErrorDown|`, and is exactly `Δy * |Dx|` when
`ErrorUp = 0`. -/
def DeltaUpperBoundOk (pEdge : CEdge) (nSubpixelYAdvance : Int) : Prop :=
  (nSubpixelYAdvance : ℚ)
      * |(pEdge.Dx : ℚ) + (pEdge.ErrorUp : ℚ) / (pEdge.ErrorDown : ℚ)|
    ≤ (ComputeDeltaUpperBound pEdge nSubpixelYAdvance : ℚ) ∧
  (pEdge.ErrorUp = 0 →
    ComputeDeltaUpperBound pEdge nSubpixelYAdvance = nSubpixelYAdvance * |pEdge.Dx|)

/-- C4.  For every edge with `0 < ErrorDown` and `0 ≤ ErrorUp < ErrorDown`
and every `Δy ≥ 0`, `ComputeDeltaUpperBound` returns an integer at least
`Δy * |Dx + ErrorUp/ErrorDown|` (the exact rational `Δy * |1/slope|` after
removing the −1 bias), and exactly `Δy * |Dx|` when `ErrorUp = 0`. -/
theorem C4_computeDeltaUpperBound (pEdge : CEdge) (nSubpixelYAdvance : Int)
    (hED : 0 < pEdge.ErrorDown) (hEU0 : 0 ≤ pEdge.ErrorUp)
    (hEUlt : pEdge.ErrorUp < pEdge.ErrorDown) (hdy : 0 ≤ nSubpixelYAdvance) :
    DeltaUpperBoundOk pEdge nSubpixelYAdvance := by
  have hEDq : (0 : ℚ) < (pEdge.ErrorDown : ℚ) := by exact_mod_cast hED
  constructor
  · by_cases h0 : pEdge.ErrorUp = 0
    · simp only [ComputeDeltaUpperBound, if_pos h0, h0]
      push_cast
      simp only [Int.cast_zero, zero_div, add_zero, le_refl]
    · simp only [ComputeDeltaUpperBound, if_neg h0]
      by_cases hDx : 0 ≤ pEdge.Dx
      · simp only [if_pos hDx]
        have habs : |(pEdge.Dx : ℚ) + (pEdge.ErrorUp : ℚ) / (pEdge.ErrorDown : ℚ)|
            = (pEdge.Dx : ℚ) + (pEdge.ErrorUp : ℚ) / (pEdge.ErrorDown : ℚ) := by
          refine abs_of_nonneg (add_nonneg ?_ (div_nonneg ?_ hEDq.le))
          · exact_mod_cast hDx
          · exact_mod_cast hEU0
        rw [habs]
        exact deltaUB_core nSubpixelYAdvance pEdge.Dx pEdge.ErrorUp pEdge.ErrorDown
          hdy hEU0 hED
      · simp only [if_neg hDx]
        rw [abs_slope_of_neg pEdge.Dx pEdge.ErrorUp pEdge.ErrorDown
          (by omega) hEU0 hEUlt]
        exact deltaUB_core nSubpixelYAdvance (-pEdge.Dx - 1) (-pEdge.ErrorUp + pEdge.ErrorDown)
          pEdge.ErrorDown hdy (by omega) hED
  · intro h0
    simp [ComputeDeltaUpperBound, h0]

/-- C4 witness: the theorem applied to a concrete edge with negative `Dx`
and nonzero `ErrorUp`. -/
theorem C4_witness :
    ((0 : Int) < (CEdge.mk 0 (-2) (-1) 1 3 0 16 1).ErrorDown ∧
        (0 : Int) ≤ (CEdge.mk 0 (-2) (-1) 1 3 0 16 1).ErrorUp ∧
        (CEdge.mk 0 (-2) (-1) 1 3 0 16 1).ErrorUp < (CEdge.mk 0 (-2) (-1) 1 3 0 16 1).ErrorDown ∧
        (0 : Int) ≤ 5) ∧
      DeltaUpperBoundOk ⟨0, -2, -1, 1, 3, 0, 16, 1⟩ 5 :=
  ⟨⟨by decide, by decide, by decide, by decide⟩,
    C4_computeDeltaUpperBound ⟨0, -2, -1, 1, 3, 0, 16, 1⟩ 5
      (by decide) (by decide) (by decide) (by decide)⟩

/-! ### Claim C5: ComputeDistanceLowerBound -/

/-- Conclusion of the amended claim C5: `ComputeDistanceLowerBound` is a
lower bound for the distance between the unbiased positions
`X + (Error+1)/ErrorDown` (the source's `Error` fields carry a −1 bias),
and concretely equals `Rx - Lx` minus one exactly when the unbiased
fraction of the right edge is smaller than that of the left edge. -/
def DistanceLowerBoundOk (pEdgeLeft pEdgeRight : CEdge) : Prop :=
  ((ComputeDistanceLowerBound pEdgeLeft pEdgeRight : ℚ) ≤
      ((pEdgeRight.X : ℚ)
          + ((pEdgeRight.Error + 1 : Int) : ℚ) / (pEdgeRight.ErrorDown : ℚ))
        - ((pEdgeLeft.X : ℚ)
          + ((pEdgeLeft.Error + 1 : Int) : ℚ) / (pEdgeLeft.ErrorDown : ℚ))) ∧
    ComputeDistanceLowerBound pEdgeLeft pEdgeRight =
      pEdgeRight.X - pEdgeLeft.X -
        (if (pEdgeRight.Error + 1) * pEdgeLeft.ErrorDown
            < (pEdgeLeft.Error + 1) * pEdgeRight.ErrorDown then 1 else 0)

/-- C5 (amended).  Under the DDA invariant `Error ∈ [-ErrorDown, 0)` on both
edges (the claim's `Error < 0` alone is not enough) and `Lx ≤ Rx`,
`ComputeDistanceLowerBound` is a lower bound on the exact rational distance
between the *unbiased* positions `X + (Error+1)/ErrorDown`; with the raw
biased errors, as the claim literally reads, the bound fails
(`C5_counterexample`). -/
theorem C5_computeDistanceLowerBound_amended (pEdgeLeft pEdgeRight : CEdge)
    (hL1 : -pEdgeLeft.ErrorDown ≤ pEdgeLeft.Error) (hL2 : pEdgeLeft.Error < 0)
    (hR1 : -pEdgeRight.ErrorDown ≤ pEdgeRight.Error) (hR2 : pEdgeRight.Error < 0)
    (hLD : 1 ≤ pEdgeLeft.ErrorDown) (hRD : 1 ≤ pEdgeRight.ErrorDown)
    (hX : pEdgeLeft.X ≤ pEdgeRight.X) :
    DistanceLowerBoundOk pEdgeLeft pEdgeRight := by
  have hLDq : (0 : ℚ) < (pEdgeLeft.ErrorDown : ℚ) := by exact_mod_cast hLD
  have hRDq : (0 : ℚ) < (pEdgeRight.ErrorDown : ℚ) := by exact_mod_cast hRD
  by_cases hc : (pEdgeRight.Error + 1) * pEdgeLeft.ErrorDown
      < (pEdgeLeft.Error + 1) * pEdgeRight.ErrorDown
  · have hres : ComputeDistanceLowerBound pEdgeLeft pEdgeRight
        = pEdgeRight.X - pEdgeLeft.X - 1 := by
      simp [ComputeDistanceLowerBound, IsFractionLessThan, hc]
    have key : ((pEdgeLeft.Error + 1 : Int) : ℚ) / (pEdgeLeft.ErrorDown : ℚ)
        - ((pEdgeRight.Error + 1 : Int) : ℚ) / (pEdgeRight.ErrorDown : ℚ) ≤ 1 := by
      rw [div_sub_div _ _ (ne_of_gt hLDq) (ne_of_gt hRDq),
        div_le_one (by positivity)]
      have p1 := mul_le_mul_of_nonneg_right
        (show pEdgeLeft.Error + 1 ≤ 0 by omega)
        (show (0 : Int) ≤ pEdgeRight.ErrorDown by omega)
      have p2 := mul_le_mul_of_nonneg_right
        (show 1 - pEdgeRight.ErrorDown ≤ pEdgeRight.Error + 1 by omega)
        (show (0 : Int) ≤ pEdgeLeft.ErrorDown by omega)
      have J : (pEdgeLeft.Error + 1) * pEdgeRight.ErrorDown
          - pEdgeLeft.ErrorDown * (pEdgeRight.Error + 1)
          ≤ pEdgeLeft.ErrorDown * pEdgeRight.ErrorDown := by nlinarith [p1, p2]
      exact_mod_cast J
    constructor
    · rw [hres]
      push_cast
      push_cast at key
      linarith
    · rw [hres, if_pos hc]
  · have hres : ComputeDistanceLowerBound pEdgeLeft pEdgeRight
        = pEdgeRight.X - pEdgeLeft.X := by
      simp [ComputeDistanceLowerBound, IsFractionLessThan, hc]
    have key : ((pEdgeLeft.Error + 1 : Int) : ℚ) / (pEdgeLeft.ErrorDown : ℚ)
        ≤ ((pEdgeRight.Error + 1 : Int) : ℚ) / (pEdgeRight.ErrorDown : ℚ) := by
      rw [div_le_div_iff₀ hLDq hRDq]
      exact_mod_cast (by omega :
        (pEdgeLeft.Error + 1) * pEdgeRight.ErrorDown
          ≤ (pEdgeRight.Error + 1) * pEdgeLeft.ErrorDown)
    constructor
    · rw [hres]
      push_cast
      push_cast at key
      linarith
    · rw [hres, if_neg hc]
      omega

/-- C5 counterexample.  With `Lx = Rx = 0`, `Le = Re = -1`, `LeD = 2`,
`ReD = 1` all of the claim's hypotheses hold (errors negative, denominators
at least one, `Lx ≤ Rx`, and even the full DDA invariant), yet the function
returns `0` while the claimed raw-biased distance
`(Rx + Re/ReD) - (Lx + Le/LeD)` equals `-1/2`, so the claimed inequality
fails. -/
theorem C5_counterexample :
    ((CEdge.mk 0 0 (-1) 0 2 0 8 1).Error < 0 ∧
        (CEdge.mk 0 0 (-1) 0 1 0 8 (-1)).Error < 0 ∧
        1 ≤ (CEdge.mk 0 0 (-1) 0 2 0 8 1).ErrorDown ∧
        1 ≤ (CEdge.mk 0 0 (-1) 0 1 0 8 (-1)).ErrorDown ∧
        (CEdge.mk 0 0 (-1) 0 2 0 8 1).X ≤ (CEdge.mk 0 0 (-1) 0 1 0 8 (-1)).X) ∧
      ¬ ((ComputeDistanceLowerBound ⟨0, 0, -1, 0, 2, 0, 8, 1⟩ ⟨0, 0, -1, 0, 1, 0, 8, -1⟩ : ℚ) ≤
          (((CEdge.mk 0 0 (-1) 0 1 0 8 (-1)).X : ℚ)
              + ((CEdge.mk 0 0 (-1) 0 1 0 8 (-1)).Error : ℚ)
                / ((CEdge.mk 0 0 (-1) 0 1 0 8 (-1)).ErrorDown : ℚ))
            - (((CEdge.mk 0 0 (-1) 0 2 0 8 1).X : ℚ)
              + ((CEdge.mk 0 0 (-1) 0 2 0 8 1).Error : ℚ)
                / ((CEdge.mk 0 0 (-1) 0 2 0 8 1).ErrorDown : ℚ))) := by
  constructor
  · exact ⟨by decide, by decide, by decide, by decide, by decide⟩
  · norm_num [ComputeDistanceLowerBound, IsFractionLessThan]

/-- C5 witness: the amended theorem applied to a concrete pair of edges on
which the unbiased comparison triggers the −1 correction. -/
theorem C5_witness :
    ((-(CEdge.mk 3 0 (-1) 0 2 0 8 1).ErrorDown ≤ (CEdge.mk 3 0 (-1) 0 2 0 8 1).Error ∧
        (CEdge.mk 3 0 (-1) 0 2 0 8 1).Error < 0 ∧
        -(CEdge.mk 7 0 (-3) 0 4 0 8 (-1)).ErrorDown ≤ (CEdge.mk 7 0 (-3) 0 4 0 8 (-1)).Error ∧
        (CEdge.mk 7 0 (-3) 0 4 0 8 (-1)).Error < 0 ∧
        1 ≤ (CEdge.mk 3 0 (-1) 0 2 0 8 1).ErrorDown ∧
        1 ≤ (CEdge.mk 7 0 (-3) 0 4 0 8 (-1)).ErrorDown ∧
        (CEdge.mk 3 0 (-1) 0 2 0 8 1).X ≤ (CEdge.mk 7 0 (-3) 0 4 0 8 (-1)).X)) ∧
      DistanceLowerBoundOk ⟨3, 0, -1, 0, 2, 0, 8, 1⟩ ⟨7, 0, -3, 0, 4, 0, 8, -1⟩ :=
  ⟨⟨by decide, by decide, by decide, by decide, by decide, by decide, by decide⟩,
    C5_computeDistanceLowerBound_amended ⟨3, 0, -1, 0, 2, 0, 8, 1⟩ ⟨7, 0, -3, 0, 4, 0, 8, -1⟩
      (by decide) (by decide) (by decide) (by decide) (by decide) (by decide) (by decide)⟩

/-! ### Claim C2: ComputeTrapezoidsEndScan return value -/

/-- Invariant of the `ComputeTrapezoidsEndScan` loop: whenever the loop
finishes normally (`some`), the resulting bottom is still above
`nSubpixelYCurrent`, below the starting candidate, and below every `EndY`
in the traversed list. -/
theorem endScanLoop_spec (yCur : Int) :
    ∀ (l : List CEdge) (yB : Int), yCur < yB → (∀ e ∈ l, yCur < e.EndY) →
      ∀ r, endScanLoop yCur yB l = some r →
        yCur < r ∧ r ≤ yB ∧ ∀ e ∈ l, r ≤ e.EndY := by
  intro l
  induction l with
  | nil =>
    intro yB hyB _ r hr
    simp only [endScanLoop, Option.some.injEq] at hr
    subst hr
    exact ⟨hyB, le_refl _, by simp⟩
  | cons e rest ih =>
    intro yB hyB hEnd r hr
    have hEndE : yCur < e.EndY := hEnd e (List.mem_cons_self e rest)
    have hyB1 : yCur < min yB e.EndY := lt_min hyB hEndE
    cases rest with
    | nil =>
      simp only [endScanLoop, Option.some.injEq] at hr
      subst hr
      refine ⟨hyB1, min_le_left _ _, ?_⟩
      intro x hx
      rw [List.mem_singleton] at hx
      subst hx
      exact min_le_right _ _
    | cons e2 rest2 =>
      have hEnd' : ∀ x ∈ e2 :: rest2, yCur < x.EndY := by
        intro x hx
        exact hEnd x (List.mem_cons_of_mem e hx)
      have hss : c_nShiftSize = 8 := rfl
      simp only [endScanLoop] at hr
      split at hr
      · exact absurd hr (by simp)
      · split at hr
        · split at hr
          · split at hr
            · exact absurd hr (by simp)
            · rename_i htop _ _ hge
              -- continue with the shortened bottom yBottom2
              set dy := min yB e.EndY - yCur with hdy
              set t := ComputeDistanceLowerBound e e2 -
                (c_nShiftSize + ComputeDeltaUpperBound e c_nHalfShiftSize +
                  ComputeDeltaUpperBound e2 c_nHalfShiftSize) with ht
              have hdiv := tdiv_mul_le dy t
                ((AdvanceDDAMultipleSteps e e2 dy).1 +
                  (c_nShiftSize + ComputeDeltaUpperBound e c_nHalfShiftSize +
                    ComputeDeltaUpperBound e2 c_nHalfShiftSize) -
                  (AdvanceDDAMultipleSteps e e2 dy).2.2.1 + 1)
                (by omega) (by omega) (by omega)
              obtain ⟨h1, h2, h3⟩ := ih _ (by omega) hEnd' r hr
              have hle : r ≤ min yB e.EndY := by omega
              refine ⟨h1, le_trans hle (min_le_left _ _), ?_⟩
              intro x hx
              rcases List.mem_cons.mp hx with hx | hx
              · subst hx
                exact le_trans hle (min_le_right _ _)
              · exact h3 x hx
          · obtain ⟨h1, h2, h3⟩ := ih _ hyB1 hEnd' r hr
            refine ⟨h1, le_trans h2 (min_le_left _ _), ?_⟩
            intro x hx
            rcases List.mem_cons.mp hx with hx | hx
            · subst hx
              exact le_trans h2 (min_le_right _ _)
            · exact h3 x hx
        · obtain ⟨h1, h2, h3⟩ := ih _ hyB1 hEnd' r hr
          refine ⟨h1, le_trans h2 (min_le_left _ _), ?_⟩
          intro x hx
          rcases List.mem_cons.mp hx with hx | hx
          · subst hx
            exact le_trans h2 (min_le_right _ _)
          · exact h3 x hx

/-- Shared characterisation of `ComputeTrapezoidsEndScan`: under the active
list invariant (`yCur < EndY` for every listed edge), pixel alignment of
`yCur`, and `yCur + 8 ≤ yNextInactive`, the return value is between `yCur`
and `yNextInactive`, is a multiple of 8, is either exactly `yCur` or at
least one full scanline further, and when it advances it stays below every
edge's `EndY` snapped down to a pixel boundary. -/
theorem ComputeTrapezoidsEndScan_spec (m_fillMode : MilFillMode) (pEdgeCurrent : List CEdge)
    (nSubpixelYCurrent nSubpixelYNextInactive : Int)
    (hAlign : nSubpixelYCurrent % 8 = 0)
    (hNI : nSubpixelYCurrent + 8 ≤ nSubpixelYNextInactive)
    (hEnd : ∀ e ∈ pEdgeCurrent, nSubpixelYCurrent < e.EndY) :
    nSubpixelYCurrent
        ≤ ComputeTrapezoidsEndScan m_fillMode pEdgeCurrent nSubpixelYCurrent
            nSubpixelYNextInactive ∧
      ComputeTrapezoidsEndScan m_fillMode pEdgeCurrent nSubpixelYCurrent
          nSubpixelYNextInactive ≤ nSubpixelYNextInactive ∧
      ComputeTrapezoidsEndScan m_fillMode pEdgeCurrent nSubpixelYCurrent
          nSubpixelYNextInactive % 8 = 0 ∧
      (ComputeTrapezoidsEndScan m_fillMode pEdgeCurrent nSubpixelYCurrent
          nSubpixelYNextInactive = nSubpixelYCurrent ∨
        nSubpixelYCurrent + 8
          ≤ ComputeTrapezoidsEndScan m_fillMode pEdgeCurrent nSubpixelYCurrent
              nSubpixelYNextInactive) ∧
      (nSubpixelYCurrent
          < ComputeTrapezoidsEndScan m_fillMode pEdgeCurrent nSubpixelYCurrent
              nSubpixelYNextInactive →
        ∀ e ∈ pEdgeCurrent,
          ComputeTrapezoidsEndScan m_fillMode pEdgeCurrent nSubpixelYCurrent
              nSubpixelYNextInactive ≤ alignDownToScanline e.EndY) := by
  unfold ComputeTrapezoidsEndScan
  split_ifs with hw
  · exact ⟨le_refl _, by omega, hAlign, Or.inl rfl, fun h => absurd h (lt_irrefl _)⟩
  · cases hloop : endScanLoop nSubpixelYCurrent nSubpixelYNextInactive pEdgeCurrent with
    | none =>
      simp only [hloop]
      refine ⟨le_refl _, by omega, hAlign, by simp, ?_⟩
      exact fun h => absurd h (lt_irrefl _)
    | some yB =>
      obtain ⟨h1, h2, h3⟩ := endScanLoop_spec nSubpixelYCurrent pEdgeCurrent
        nSubpixelYNextInactive (by omega) hEnd yB hloop
      simp only [hloop]
      have haLe : alignDownToScanline yB ≤ yB := alignDownToScanline_le yB
      have haMod := alignDownToScanline_emod yB
      have hyLe : nSubpixelYCurrent ≤ alignDownToScanline yB := by
        have hm := alignDownToScanline_mono (show nSubpixelYCurrent ≤ yB by omega)
        rwa [alignDownToScanline_of_emod hAlign] at hm
      refine ⟨hyLe, by omega, haMod, by omega, ?_⟩
      intro _ e he
      exact alignDownToScanline_mono (h3 e he)

/-- Conclusion of claim C2 for the returned scan value. -/
def TrapezoidsEndScanOk (m_fillMode : MilFillMode) (pEdgeCurrent : List CEdge)
    (nSubpixelYCurrent nSubpixelYNextInactive : Int) : Prop :=
  nSubpixelYCurrent
      ≤ ComputeTrapezoidsEndScan m_fillMode pEdgeCurrent nSubpixelYCurrent
          nSubpixelYNextInactive ∧
    ComputeTrapezoidsEndScan m_fillMode pEdgeCurrent nSubpixelYCurrent
        nSubpixelYNextInactive ≤ nSubpixelYNextInactive ∧
    ComputeTrapezoidsEndScan m_fillMode pEdgeCurrent nSubpixelYCurrent
        nSubpixelYNextInactive % 8 = 0 ∧
    (ComputeTrapezoidsEndScan m_fillMode pEdgeCurrent nSubpixelYCurrent
        nSubpixelYNextInactive = nSubpixelYCurrent ∨
      nSubpixelYCurrent + 8
        ≤ ComputeTrapezoidsEndScan m_fillMode pEdgeCurrent nSubpixelYCurrent
            nSubpixelYNextInactive) ∧
    (nSubpixelYCurrent
        < ComputeTrapezoidsEndScan m_fillMode pEdgeCurrent nSubpixelYCurrent
            nSubpixelYNextInactive →
      ∀ e ∈ pEdgeCurrent,
        ComputeTrapezoidsEndScan m_fillMode pEdgeCurrent nSubpixelYCurrent
            nSubpixelYNextInactive ≤ alignDownToScanline e.EndY)

/-- C2.  For every active edge list (even length, each edge still alive at
`yCur`), pixel-aligned `yCur` and `yNextInactive ≥ yCur + SHIFT_SIZE`, the
value `r` returned by `ComputeTrapezoidsEndScan` satisfies
`yCur ≤ r ≤ yNextInactive`, is a multiple of `SHIFT_SIZE` (hence either
exactly `yCur` or at least `yCur + SHIFT_SIZE`), and whenever `r > yCur`
it is at most each edge's `EndY` rounded down to a pixel boundary. -/
theorem C2_computeTrapezoidsEndScan (m_fillMode : MilFillMode) (pEdgeCurrent : List CEdge)
    (nSubpixelYCurrent nSubpixelYNextInactive : Int)
    (hAlign : nSubpixelYCurrent % 8 = 0)
    (hNI : nSubpixelYCurrent + 8 ≤ nSubpixelYNextInactive)
    (hEnd : ∀ e ∈ pEdgeCurrent, nSubpixelYCurrent < e.EndY)
    (hEven : 2 ∣ pEdgeCurrent.length) :
    TrapezoidsEndScanOk m_fillMode pEdgeCurrent nSubpixelYCurrent nSubpixelYNextInactive :=
  ComputeTrapezoidsEndScan_spec m_fillMode pEdgeCurrent nSubpixelYCurrent
    nSubpixelYNextInactive hAlign hNI hEnd

/-- C2 witness: the theorem applied to a concrete two-edge active list. -/
theorem C2_witness :
    ((0 : Int) % 8 = 0 ∧ (0 : Int) + 8 ≤ 8 ∧
        (∀ e ∈ [CEdge.mk 0 0 (-1) 0 1 0 16 1, CEdge.mk 100 0 (-1) 0 1 0 16 (-1)],
          (0 : Int) < e.EndY) ∧
        2 ∣ ([CEdge.mk 0 0 (-1) 0 1 0 16 1, CEdge.mk 100 0 (-1) 0 1 0 16 (-1)] : List CEdge).length) ∧
      TrapezoidsEndScanOk MilFillMode.Alternate
        [⟨0, 0, -1, 0, 1, 0, 16, 1⟩, ⟨100, 0, -1, 0, 1, 0, 16, -1⟩] 0 8 :=
  ⟨⟨by decide, by decide, by decide, by decide⟩,
    C2_computeTrapezoidsEndScan MilFillMode.Alternate
      [⟨0, 0, -1, 0, 1, 0, 16, 1⟩, ⟨100, 0, -1, 0, 1, 0, 16, -1⟩] 0 8
      (by decide) (by decide) (by decide) (by decide)⟩

/-! ### Claim C6: winding guard -/

/-- If some consecutive pair (taken pairwise) has equal winding directions,
the guard loop reports it. -/
theorem pairsOf_hasEqual :
    ∀ (l : List CEdge) (p : CEdge × CEdge), p ∈ pairsOf l →
      p.1.WindingDirection = p.2.WindingDirection → hasEqualWindingPair l = true
  | a :: b :: rest, p, hp, heq => by
    simp only [pairsOf, List.mem_cons] at hp
    rcases hp with hp | hp
    · subst hp
      simp only [hasEqualWindingPair, Bool.or_eq_true, decide_eq_true_eq]
      exact Or.inl heq
    · have hres := pairsOf_hasEqual rest p hp heq
      simp [hasEqualWindingPair, hres]
  | [], p, hp, _ => by simp [pairsOf] at hp
  | [a], p, hp, _ => by simp [pairsOf] at hp

/-- C6.  In winding fill mode, if any consecutive pair of edges taken
pairwise from the first real edge of the active list has equal
`WindingDirection`, then `ComputeTrapezoidsEndScan` returns
`nSubpixelYCurrent` (so the sweep emits no trapezoids for that scanline). -/
theorem C6_windingGuard (m_fillMode : MilFillMode) (pEdgeCurrent : List CEdge)
    (nSubpixelYCurrent nSubpixelYNextInactive : Int)
    (hfm : m_fillMode = MilFillMode.Winding)
    (hEven : 2 ∣ pEdgeCurrent.length)
    (p : CEdge × CEdge) (hp : p ∈ pairsOf pEdgeCurrent)
    (heq : p.1.WindingDirection = p.2.WindingDirection) :
    ComputeTrapezoidsEndScan m_fillMode pEdgeCurrent nSubpixelYCurrent
      nSubpixelYNextInactive = nSubpixelYCurrent := by
  have hguard := pairsOf_hasEqual pEdgeCurrent p hp heq
  simp [ComputeTrapezoidsEndScan, hfm, hguard]

/-- C6 witness: a winding-mode active list whose first pair shares a
winding direction makes the recognizer return `yCur`. -/
theorem C6_witness :
    (MilFillMode.Winding = MilFillMode.Winding ∧
        2 ∣ ([CEdge.mk 0 0 (-1) 0 1 0 16 1, CEdge.mk 9 0 (-1) 0 1 0 16 1] : List CEdge).length ∧
        (CEdge.mk 0 0 (-1) 0 1 0 16 1, CEdge.mk 9 0 (-1) 0 1 0 16 1)
            ∈ pairsOf [⟨0, 0, -1, 0, 1, 0, 16, 1⟩, ⟨9, 0, -1, 0, 1, 0, 16, 1⟩] ∧
        (CEdge.mk 0 0 (-1) 0 1 0 16 1).WindingDirection
          = (CEdge.mk 9 0 (-1) 0 1 0 16 1).WindingDirection) ∧
      ComputeTrapezoidsEndScan MilFillMode.Winding
        [⟨0, 0, -1, 0, 1, 0, 16, 1⟩, ⟨9, 0, -1, 0, 1, 0, 16, 1⟩] 0 8 = 0 :=
  ⟨⟨rfl, by decide, by decide, by decide⟩,
    C6_windingGuard MilFillMode.Winding
      [⟨0, 0, -1, 0, 1, 0, 16, 1⟩, ⟨9, 0, -1, 0, 1, 0, 16, 1⟩] 0 8 rfl (by decide)
      (⟨0, 0, -1, 0, 1, 0, 16, 1⟩, ⟨9, 0, -1, 0, 1, 0, 16, 1⟩) (by decide) (by decide)⟩

/-! ### Claim C7: OutputTrapezoids frame -/

/-- All fields of an edge other than `X` and `Error` agree. -/
def FieldsEq (e e2 : CEdge) : Prop :=
  e2.Dx = e.Dx ∧ e2.ErrorUp = e.ErrorUp ∧ e2.ErrorDown = e.ErrorDown ∧
    e2.StartY = e.StartY ∧ e2.EndY = e.EndY ∧ e2.WindingDirection = e.WindingDirection

instance (e e2 : CEdge) : Decidable (FieldsEq e e2) := by
  unfold FieldsEq
  infer_instance

/-- The `OutputTrapezoids` loop preserves the length of the active list. -/
theorem outputTrapezoidsEdges_length (nSubpixelYAdvance : Int) :
    ∀ l : List CEdge, (outputTrapezoidsEdges nSubpixelYAdvance l).length = l.length
  | [] => rfl
  | [a] => rfl
  | a :: b :: rest => by
    simp only [outputTrapezoidsEdges, List.length_cons]
    rw [outputTrapezoidsEdges_length nSubpixelYAdvance rest]

/-- The `OutputTrapezoids` loop leaves every field other than `X` and
`Error` of every edge unchanged, and keeps the list order (`Next` links). -/
theorem outputTrapezoidsEdges_frame (nSubpixelYAdvance : Int) :
    ∀ (l : List CEdge) (i : ℕ)
      (h1 : i < (outputTrapezoidsEdges nSubpixelYAdvance l).length) (h2 : i < l.length),
      FieldsEq (l.get ⟨i, h2⟩) ((outputTrapezoidsEdges nSubpixelYAdvance l).get ⟨i, h1⟩)
  | [], i, h1, h2 => absurd h2 (by simp)
  | [a], 0, h1, h2 => by
    exact ⟨rfl, rfl, rfl, rfl, rfl, rfl⟩
  | [a], (i+1), h1, h2 => by simp at h2
  | a :: b :: rest, 0, h1, h2 => by
    exact ⟨rfl, rfl, rfl, rfl, rfl, rfl⟩
  | a :: b :: rest, 1, h1, h2 => by
    exact ⟨rfl, rfl, rfl, rfl, rfl, rfl⟩
  | a :: b :: rest, (i+2), h1, h2 => by
    have h1r : i < (outputTrapezoidsEdges nSubpixelYAdvance rest).length := by
      have := outputTrapezoidsEdges_length nSubpixelYAdvance rest
      simp only [outputTrapezoidsEdges, List.length_cons] at h1
      omega
    have h2r : i < rest.length := by
      simp only [List.length_cons] at h2
      omega
    have ih := outputTrapezoidsEdges_frame nSubpixelYAdvance rest i h1r h2r
    simpa [outputTrapezoidsEdges, List.get] using ih

/-- Per pair, the `OutputTrapezoids` loop overwrites exactly `X` and
`Error` with the bottom values computed by `AdvanceDDAMultipleSteps`. -/
theorem outputTrapezoidsEdges_pairsOf (nSubpixelYAdvance : Int) :
    ∀ l : List CEdge,
      pairsOf (outputTrapezoidsEdges nSubpixelYAdvance l) =
        (pairsOf l).map (fun p =>
          ({ p.1 with
              X := (AdvanceDDAMultipleSteps p.1 p.2 nSubpixelYAdvance).1,
              Error := (AdvanceDDAMultipleSteps p.1 p.2 nSubpixelYAdvance).2.1 },
           { p.2 with
              X := (AdvanceDDAMultipleSteps p.1 p.2 nSubpixelYAdvance).2.2.1,
              Error := (AdvanceDDAMultipleSteps p.1 p.2 nSubpixelYAdvance).2.2.2 }))
  | [] => rfl
  | [a] => rfl
  | a :: b :: rest => by
    simp only [outputTrapezoidsEdges, pairsOf, List.map_cons]
    rw [outputTrapezoidsEdges_pairsOf nSubpixelYAdvance rest]

/-- Conclusion of claim C7: the post-call active list has the same length
and order, every edge keeps all fields except `X` and `Error`, and each
pair's `X`/`Error` are the bottom values of `AdvanceDDAMultipleSteps` at
`Δy = yNext - yCur`. -/
def OutputTrapezoidsOk (pEdgeCurrent : List CEdge) (nSubpixelYCurrent nSubpixelYNext : Int) :
    Prop :=
  (OutputTrapezoids pEdgeCurrent nSubpixelYCurrent nSubpixelYNext).length
      = pEdgeCurrent.length ∧
    (∀ (i : ℕ)
      (h1 : i < (OutputTrapezoids pEdgeCurrent nSubpixelYCurrent nSubpixelYNext).length)
      (h2 : i < pEdgeCurrent.length),
      FieldsEq (pEdgeCurrent.get ⟨i, h2⟩)
        ((OutputTrapezoids pEdgeCurrent nSubpixelYCurrent nSubpixelYNext).get ⟨i, h1⟩)) ∧
    pairsOf (OutputTrapezoids pEdgeCurrent nSubpixelYCurrent nSubpixelYNext) =
      (pairsOf pEdgeCurrent).map (fun p =>
        ({ p.1 with
            X := (AdvanceDDAMultipleSteps p.1 p.2 (nSubpixelYNext - nSubpixelYCurrent)).1,
            Error := (AdvanceDDAMultipleSteps p.1 p.2 (nSubpixelYNext - nSubpixelYCurrent)).2.1 },
         { p.2 with
            X := (AdvanceDDAMultipleSteps p.1 p.2 (nSubpixelYNext - nSubpixelYCurrent)).2.2.1,
            Error := (AdvanceDDAMultipleSteps p.1 p.2 (nSubpixelYNext - nSubpixelYCurrent)).2.2.2 }))

/-- C7.  For every edge of the (even-length) active list processed by
`OutputTrapezoids`, only `X` and `Error` are mutated — to the bottom values
computed by `AdvanceDDAMultipleSteps` for `Δy = yNext - yCur` — while `Dx`,
`ErrorUp`, `ErrorDown`, `StartY`, `EndY`, `WindingDirection` and the list
structure (`Next` links) are unchanged. -/
theorem C7_outputTrapezoids (pEdgeCurrent : List CEdge)
    (nSubpixelYCurrent nSubpixelYNext : Int) (hEven : 2 ∣ pEdgeCurrent.length) :
    OutputTrapezoidsOk pEdgeCurrent nSubpixelYCurrent nSubpixelYNext :=
  ⟨outputTrapezoidsEdges_length _ pEdgeCurrent,
    fun i h1 h2 => outputTrapezoidsEdges_frame _ pEdgeCurrent i h1 h2,
    outputTrapezoidsEdges_pairsOf _ pEdgeCurrent⟩

/-- C7 witness: the theorem applied to a concrete two-edge active list. -/
theorem C7_witness :
    2 ∣ ([CEdge.mk 0 1 (-1) 1 3 0 16 1, CEdge.mk 9 0 (-1) 0 2 0 16 (-1)] : List CEdge).length ∧
      OutputTrapezoidsOk [⟨0, 1, -1, 1, 3, 0, 16, 1⟩, ⟨9, 0, -1, 0, 2, 0, 16, -1⟩] 0 8 :=
  ⟨by decide,
    C7_outputTrapezoids [⟨0, 1, -1, 1, 3, 0, 16, 1⟩, ⟨9, 0, -1, 0, 2, 0, 16, -1⟩] 0 8 (by decide)⟩

/-! ### Claim C8: RasterizePath early exits -/

/-- C8.  `RasterizePath` returns success with zero primitives — never a
partial output — when the path has fewer than two points, when path
enumeration reports `WGXERR_VALUEOVERFLOW` (mapped to `S_OK`), or when the
edge store enumeration yields zero edges. -/
theorem C8_rasterizePath {Prim : Type} (cPoints : Nat) (env : RasterizePathEnv Prim)
    (h : cPoints < 2 ∨ env.enumHr = WGXERR_VALUEOVERFLOW ∨
      (FAILED env.enumHr = false ∧ env.nTotalCount = 0)) :
    RasterizePath cPoints env = (S_OK, ([] : List Prim)) := by
  rcases h with h | h | ⟨h1, h2⟩
  · simp [RasterizePath, h]
  · by_cases hcp : cPoints < 2
    · simp [RasterizePath, hcp]
    · have hf : FAILED WGXERR_VALUEOVERFLOW = true := by decide
      simp [RasterizePath, hcp, h, hf]
  · by_cases hcp : cPoints < 2
    · simp [RasterizePath, hcp]
    · have hfp : ¬ (FAILED env.enumHr = true) := by
        rw [h1]
        decide
      simp [RasterizePath, hcp, hfp, h2]

/-- C8 witness: the theorem applied, through each of its three cases, to
concrete environments. -/
theorem C8_witness :
    RasterizePath 1 (RasterizePathEnv.mk 0 5 0 ([] : List Unit)) = (S_OK, []) ∧
      RasterizePath 5 (RasterizePathEnv.mk WGXERR_VALUEOVERFLOW 5 0 ([(), ()] : List Unit))
        = (S_OK, []) ∧
      RasterizePath 5 (RasterizePathEnv.mk 0 0 0 ([(), ()] : List Unit)) = (S_OK, []) :=
  ⟨C8_rasterizePath 1 _ (Or.inl (by decide)),
    C8_rasterizePath 5 _ (Or.inr (Or.inl rfl)),
    C8_rasterizePath 5 _ (Or.inr (Or.inr ⟨by decide, rfl⟩))⟩

/-! ### Claim C9: sweep loop step -/

/-- Conclusion of claim C9 for one iteration of the `RasterizeEdges` sweep
loop: when the trapezoid path runs, its run conditions held and it advanced
`yCur` by a positive multiple of `SHIFT_SIZE`; otherwise the complex path
advanced by exactly one sub-scanline for a non-empty active list, or jumped
straight to `yNextInactive` for an empty one. -/
def SweepStepOk (m_fillMode : MilFillMode) (pEdgeCurrent : List CEdge)
    (nSubpixelYCurrent nSubpixelYNextInactive : Int) : Prop :=
  ((rasterizeEdgesStep m_fillMode pEdgeCurrent nSubpixelYCurrent nSubpixelYNextInactive).2
        = true →
      (nSubpixelYCurrent % 8 = 0 ∧ pEdgeCurrent ≠ [] ∧
        nSubpixelYCurrent + c_nShiftSize ≤ nSubpixelYNextInactive) ∧
      ∃ k : Int, 0 < k ∧
        (rasterizeEdgesStep m_fillMode pEdgeCurrent nSubpixelYCurrent
          nSubpixelYNextInactive).1 = nSubpixelYCurrent + 8 * k) ∧
    ((rasterizeEdgesStep m_fillMode pEdgeCurrent nSubpixelYCurrent nSubpixelYNextInactive).2
        = false →
      (pEdgeCurrent = [] →
        (rasterizeEdgesStep m_fillMode pEdgeCurrent nSubpixelYCurrent
          nSubpixelYNextInactive).1 = nSubpixelYNextInactive) ∧
      (pEdgeCurrent ≠ [] →
        (rasterizeEdgesStep m_fillMode pEdgeCurrent nSubpixelYCurrent
          nSubpixelYNextInactive).1 = nSubpixelYCurrent + 1))

/-- C9.  In each iteration of the `RasterizeEdges` sweep loop (with the
active-list invariant that every listed edge is still alive), exactly one
of the two paths runs: the trapezoid path only when `yCur` is
pixel-aligned, the active list is non-empty and
`yNextInactive ≥ yCur + SHIFT_SIZE`, advancing `yCur` by a positive
multiple of `SHIFT_SIZE`; otherwise the complex path advances by exactly
one sub-scanline (non-empty list) or jumps to `yNextInactive` (empty
list). -/
theorem C9_rasterizeEdgesStep (m_fillMode : MilFillMode) (pEdgeCurrent : List CEdge)
    (nSubpixelYCurrent nSubpixelYNextInactive : Int)
    (hEnd : ∀ e ∈ pEdgeCurrent, nSubpixelYCurrent < e.EndY)
    (hEven : 2 ∣ pEdgeCurrent.length) :
    SweepStepOk m_fillMode pEdgeCurrent nSubpixelYCurrent nSubpixelYNextInactive := by
  by_cases hc : tagDisableTrapezoids = false ∧ nSubpixelYCurrent % 8 = 0 ∧
      pEdgeCurrent ≠ [] ∧ nSubpixelYCurrent + c_nShiftSize ≤ nSubpixelYNextInactive
  · have hcond := hc
    obtain ⟨htag, hAlign, hne, hNI⟩ := hc
    have hNI8 : nSubpixelYCurrent + 8 ≤ nSubpixelYNextInactive := by
      have hss : c_nShiftSize = 8 := rfl
      omega
    obtain ⟨s1, s2, s3, s4, s5⟩ := ComputeTrapezoidsEndScan_spec m_fillMode pEdgeCurrent
      nSubpixelYCurrent nSubpixelYNextInactive hAlign hNI8 hEnd
    by_cases hlt : nSubpixelYCurrent < ComputeTrapezoidsEndScan m_fillMode pEdgeCurrent
        nSubpixelYCurrent nSubpixelYNextInactive
    · have hstep : rasterizeEdgesStep m_fillMode pEdgeCurrent nSubpixelYCurrent
          nSubpixelYNextInactive =
          (ComputeTrapezoidsEndScan m_fillMode pEdgeCurrent nSubpixelYCurrent
            nSubpixelYNextInactive, true) := by
        simp only [rasterizeEdgesStep]
        rw [if_pos hcond, if_pos hlt]
      constructor
      · intro _
        refine ⟨⟨hAlign, hne, hNI⟩, ?_⟩
        refine ⟨(ComputeTrapezoidsEndScan m_fillMode pEdgeCurrent nSubpixelYCurrent
          nSubpixelYNextInactive - nSubpixelYCurrent) / 8, ?_, ?_⟩
        · omega
        · rw [hstep]
          omega
      · intro hfalse
        rw [hstep] at hfalse
        simp at hfalse
    · have hstep : rasterizeEdgesStep m_fillMode pEdgeCurrent nSubpixelYCurrent
          nSubpixelYNextInactive = (nSubpixelYCurrent + 1, false) := by
        simp only [rasterizeEdgesStep]
        rw [if_pos hcond, if_neg hlt, if_neg hne]
      constructor
      · intro htrue
        rw [hstep] at htrue
        simp at htrue
      · intro _
        rw [hstep]
        exact ⟨fun h => absurd h hne, fun _ => rfl⟩
  · have hyNext : ¬ (nSubpixelYCurrent < nSubpixelYCurrent) := lt_irrefl _
    have hstep0 : rasterizeEdgesStep m_fillMode pEdgeCurrent nSubpixelYCurrent
        nSubpixelYNextInactive =
        (if pEdgeCurrent = [] then (nSubpixelYNextInactive, false)
          else (nSubpixelYCurrent + 1, false)) := by
      simp only [rasterizeEdgesStep]
      rw [if_neg hc, if_neg hyNext]
    by_cases hl : pEdgeCurrent = []
    · rw [if_pos hl] at hstep0
      unfold SweepStepOk
      rw [hstep0]
      exact ⟨fun h => by simp at h, fun _ => ⟨fun _ => rfl, fun h => absurd hl h⟩⟩
    · rw [if_neg hl] at hstep0
      unfold SweepStepOk
      rw [hstep0]
      exact ⟨fun h => by simp at h, fun _ => ⟨fun h => absurd h hl, fun _ => rfl⟩⟩

/-- C9 witness: a concrete iteration that takes the trapezoid path. -/
theorem C9_witness :
    ((∀ e ∈ [CEdge.mk 0 0 (-1) 0 1 0 16 1, CEdge.mk 100 0 (-1) 0 1 0 16 (-1)],
        (0 : Int) < e.EndY) ∧
      2 ∣ ([CEdge.mk 0 0 (-1) 0 1 0 16 1, CEdge.mk 100 0 (-1) 0 1 0 16 (-1)] : List CEdge).length) ∧
      SweepStepOk MilFillMode.Alternate
        [⟨0, 0, -1, 0, 1, 0, 16, 1⟩, ⟨100, 0, -1, 0, 1, 0, 16, -1⟩] 0 8 :=
  ⟨⟨by decide, by decide⟩,
    C9_rasterizeEdgesStep MilFillMode.Alternate
      [⟨0, 0, -1, 0, 1, 0, 16, 1⟩, ⟨100, 0, -1, 0, 1, 0, 16, -1⟩] 0 8
      (by decide) (by decide)⟩

/-! ### Claim C10: ComputeTrapezoidsEndScan is observationally pure -/

/-- The state-threaded loop returns the edge list unchanged and computes the
same result as the pure loop. -/
theorem endScanLoopSt_spec (nSubpixelYCurrent : Int) (yB : Int) (l : List CEdge) :
    (endScanLoopSt nSubpixelYCurrent yB l).2 = l ∧
      (endScanLoopSt nSubpixelYCurrent yB l).1 = endScanLoop nSubpixelYCurrent yB l := by
  induction l generalizing yB with
  | nil => exact ⟨rfl, rfl⟩
  | cons a rest ih =>
    cases rest with
    | nil => exact ⟨rfl, rfl⟩
    | cons b rest2 =>
      have iha := fun (X : Int) => (ih X).1
      have ihb := fun (X : Int) => (ih X).2
      constructor
      · rw [endScanLoopSt.eq_def]
        dsimp only
        simp [apply_ite Prod.snd, iha]
      · rw [endScanLoopSt.eq_def, endScanLoop.eq_def]
        dsimp only
        simp [apply_ite Prod.fst, ihb]

/-- C10.  `ComputeTrapezoidsEndScan` is a pure decision procedure over the
active edge list: the state-threaded rendering of the source (which reads
fields through `const` pointers and stores every DDA advancement in local
temporaries) returns the edge list — fields and `Next` order — exactly as
it received it, while computing the same scan value as the pure model. -/
theorem C10_computeTrapezoidsEndScan_pure (m_fillMode : MilFillMode)
    (pEdgeCurrent : List CEdge) (nSubpixelYCurrent nSubpixelYNextInactive : Int) :
    (ComputeTrapezoidsEndScanSt m_fillMode pEdgeCurrent nSubpixelYCurrent
        nSubpixelYNextInactive).2 = pEdgeCurrent ∧
      (ComputeTrapezoidsEndScanSt m_fillMode pEdgeCurrent nSubpixelYCurrent
          nSubpixelYNextInactive).1 =
        ComputeTrapezoidsEndScan m_fillMode pEdgeCurrent nSubpixelYCurrent
          nSubpixelYNextInactive := by
  obtain ⟨h2, h1⟩ := endScanLoopSt_spec nSubpixelYCurrent nSubpixelYNextInactive pEdgeCurrent
  unfold ComputeTrapezoidsEndScanSt ComputeTrapezoidsEndScan
  split_ifs with hw
  · exact ⟨rfl, rfl⟩
  · rcases hres : endScanLoopSt nSubpixelYCurrent nSubpixelYNextInactive pEdgeCurrent
      with ⟨o, st⟩
    rw [hres] at h1 h2
    simp only at h1 h2
    cases o with
    | none =>
      simp only [hres, ← h1]
      exact ⟨h2, by trivial⟩
    | some yB =>
      simp only [hres, ← h1]
      exact ⟨h2, by trivial⟩

end HwRasterizer
